import Mathlib

/-!
Verification development for the wikimap graph state engine.

The development shallowly embeds the graph-mutating functions of
src/js/main_functions.js and src/js/bindings.js over an explicit state
record.  Topic names and labels are drawn from an arbitrary type with
decidable equality; the helper functions that live outside src
(getNormalizedId, wordwrap, unwrap, decodeURIComponent, getSpawnPosition
and the random jitter) are supplied as parameters in a context record,
and the store plus the remaining absent helpers are modelled from the
specification where noted.
-/

set_option linter.unusedSectionVars false

universe u

variable {α : Type u} [DecidableEq α]

/-- Node fill colors: the default level-derived color produced by the
helper getColor, or the highlight color applied to trace nodes. -/
inductive NColor where
  | level (n : Nat)
  | highlight
deriving DecidableEq, Repr

/-- Edge colors: the level-derived default produced by getEdgeColor, the
inherit-from-target color used on the traced path, and the dimmed
transparent color used for unrelated edges. -/
inductive EColor where
  | level (n : Nat)
  | inheritTo
  | dim
deriving DecidableEq, Repr

/-- Node text color: full opacity rgba(0,0,0,1) or the dimmed
rgba(0,0,0,0.3) used for inactive nodes. -/
inductive FontColor where
  | full
  | dim
deriving DecidableEq, Repr

/-- A node record as built by the source (id, label, value, level, color,
parent back-pointer, spawn position, font color). -/
structure Node (α : Type u) where
  id : α
  label : α
  value : Nat
  level : Nat
  color : NColor
  parent : Option α
  x : Int
  y : Int
  font : FontColor
deriving DecidableEq, Repr

/-- An edge record as built by the source.  The field called from in the
source is named efrom here (from is a Lean keyword).  Ids are
auto-assigned numbers (the concrete store generates ids for edges added
without one); width defaults to 1, the default rendering width. -/
structure Edge (α : Type u) where
  id : Nat
  efrom : α
  eto : α
  color : EColor
  level : Nat
  selectionWidth : Nat
  hoverWidth : Nat
  width : Nat
deriving DecidableEq, Repr

/-- The whole mutable state: the node and edge collections of the store,
the fresh-edge-id counter, and the window globals isReset, selectedNode,
tracenodes, traceedges, startpages, plus the bindings-level
lastClickedNode.  tracenodes and traceedges keep the element type of the
source arrays: entries may be missing values (undefined). -/
structure St (α : Type u) where
  nodes : List (Node α)
  edges : List (Edge α)
  nextEdgeId : Nat
  isReset : Bool
  selectedNode : Option α
  tracenodes : List (Option α)
  traceedges : List (Option Nat)
  startpages : List α
  lastClicked : Option α
deriving DecidableEq, Repr

/-- The pure helpers that live outside src and are passed in as
parameters: getNormalizedId, wordwrap, unwrap, decodeURIComponent,
getSpawnPosition, and the random jitter drawn in expandNodeCallback
(given per loop index as an x/y offset). -/
structure Ctx (α : Type u) where
  norm : α → α
  wordwrap : α → Nat → α
  unwrap : α → α
  decodeURI : α → α
  spawn : α → Int × Int
  jitter : Nat → Int × Int

/-- nodes.get(id): the first stored node with that id, if any. -/
def nodesGet (st : St α) (i : α) : Option (Node α) :=
  st.nodes.find? (fun n => n.id == i)

/-- nodes.getIds(). -/
def nodesGetIds (st : St α) : List α :=
  st.nodes.map (fun n => n.id)

/-- Modelled from the spec: addNodes of the Graph Store (the concrete
store is the external vis DataSet, absent from src).  Insertion of an id
that already exists is a no-op; items are processed in order, so a later
duplicate inside one batch is also dropped (spec 4.2). -/
def nodesAdd (st : St α) (items : List (Node α)) : St α :=
  items.foldl
    (fun s it =>
      if (nodesGetIds s).contains it.id then s
      else { s with nodes := s.nodes ++ [it] })
    st

/-- nodes.remove(id): drop the node record with that id.  The store does
not cascade to edges. -/
def nodesRemove (st : St α) (i : α) : St α :=
  { st with nodes := st.nodes.filter (fun n => !(n.id == i)) }

/-- nodes.update({ id, label }): merge a label into the existing record
with that id (the call site checks the id is present just before). -/
def nodesSetLabel (st : St α) (i : α) (lbl : α) : St α :=
  { st with nodes := st.nodes.map (fun n => if n.id == i then { n with label := lbl } else n) }

/-- nodes.update over the nodes whose parent is oldId, re-pointing parent
to newId (the updated items are full records of nodes currently in the
store, so the upsert reduces to an in-place map). -/
def repointParents (st : St α) (oldId newId : α) : St α :=
  { st with
    nodes := st.nodes.map (fun n =>
      if n.parent == some oldId then { n with parent := some newId } else n) }

/-- edges.update of one item: replace the record with the same id in
place, or append the item when its id is not present. -/
def upsertEdge (es : List (Edge α)) (it : Edge α) : List (Edge α) :=
  if es.any (fun e => e.id == it.id) then
    es.map (fun e => if e.id == it.id then it else e)
  else es ++ [it]

/-- edges.update(items): items applied in order. -/
def edgesUpdate (st : St α) (items : List (Edge α)) : St α :=
  { st with edges := items.foldl upsertEdge st.edges }

/-- edges.add(items): each item receives a fresh id from the counter and
is appended. -/
def edgesAdd (st : St α) (items : List (Edge α)) : St α :=
  items.foldl
    (fun s it =>
      { s with
        edges := s.edges ++ [{ it with id := s.nextEdgeId }],
        nextEdgeId := s.nextEdgeId + 1 })
    st

/-- Modelled from the spec: getEdgeConnecting (helper absent from src)
looks up the store edge directed from the first node to the second and
yields its id (spec 4.2 names the operation; callers use the result as an
edge id and as a truthiness test). -/
def getEdgeConnecting (st : St α) (a b : α) : Option Nat :=
  (st.edges.find? (fun e => e.efrom == a && e.eto == b)).map (fun e => e.id)

/-- getEdgeConnecting as applied to possibly-missing arguments (entries of
tracenodes): a comparison with a missing value matches no stored edge. -/
def getEdgeConnectingO (st : St α) (a b : Option α) : Option Nat :=
  match a, b with
  | some a, some b => getEdgeConnecting st a b
  | _, _ => none

/-- Modelled from the spec: the visualization surface capability
connectedEdges(id) (spec 6) - the ids of the store edges incident to the
node. -/
def networkGetConnectedEdges (st : St α) (i : α) : List Nat :=
  (st.edges.filter (fun e => e.efrom == i || e.eto == i)).map (fun e => e.id)

/-- Modelled from the spec: the visualization surface capability
connectedNodes(id) (spec 6) - the opposite endpoints of the edges
incident to the node. -/
def networkGetConnectedNodes (st : St α) (i : α) : List α :=
  (st.edges.filter (fun e => e.efrom == i)).map (fun e => e.eto) ++
  (st.edges.filter (fun e => e.eto == i)).map (fun e => e.efrom)

/-- The degree of a node: how many stored edges touch it. -/
def degree (st : St α) (i : α) : Nat :=
  (st.edges.filter (fun e => e.efrom == i || e.eto == i)).length

/-- Modelled from the spec: updateNodeValue (helper absent from src)
recomputes the stored value of a node as its current degree (spec 3: the
visual weight equals the count of incident edges); a missing node is a
no-op. -/
def updateNodeValue (st : St α) (i : α) : St α :=
  { st with
    nodes := st.nodes.map (fun n =>
      if n.id == i then { n with value := degree st i } else n) }

/-- Modelled from the spec: colorNodes (helper absent from src).  With
flag 0 the listed nodes get their level-derived default color back; with
any other flag they get the highlight color (spec: trace nodes colored,
reset restores level colors). -/
def colorNodes (st : St α) (ns : List (Node α)) (flag : Nat) : St α :=
  { st with
    nodes := st.nodes.map (fun n =>
      if ns.any (fun m => m.id == n.id) then
        { n with color := if flag == 0 then NColor.level n.level else NColor.highlight }
      else n) }

/-- The edge half of renameNode (main_functions.js lines 21-30): one
edges.update call whose items are, in order, every edge leaving oldId
re-pointed to leave newId, then every edge entering oldId re-pointed to
enter newId.  Both item lists are built from the same snapshot of the
store, before the update is applied. -/
def renameEdgePhase (st : St α) (oldId newId : α) : St α :=
  edgesUpdate st
    ((st.edges.filter (fun e => e.efrom == oldId)).map (fun e => { e with efrom := newId }) ++
     (st.edges.filter (fun e => e.eto == oldId)).map (fun e => { e with eto := newId }))

/-- The tail of renameNode (main_functions.js lines 42-52): re-point the
parent of every child of oldId, then move the selection, the trace node
list and the start page list from oldId to newId. -/
def renameFinishPhase (st : St α) (oldId newId : α) : St α :=
  let st := repointParents st oldId newId
  let st := if st.selectedNode == some oldId then { st with selectedNode := some newId } else st
  let st := { st with tracenodes := st.tracenodes.map (fun o => if o == some oldId then some newId else o) }
  { st with startpages := st.startpages.map (fun i => if i == oldId then newId else i) }

/-- renameNode (main_functions.js lines 15-55).  Yields the new state and
the returned id; the id is missing exactly where the source throws (the
pure-rename branch reads the level of the old node, which is absent), in
which case the state holds the mutations already applied at the throw. -/
def renameNode (C : Ctx α) (st : St α) (oldId newName : α) : St α × Option α :=
  let oldNode := nodesGet st oldId
  let newId := C.norm newName
  if newId == oldId then (st, some oldId)
  else
    let st := renameEdgePhase st oldId newId
    if (nodesGet st newId).isSome then
      let st := nodesRemove st oldId
      let st := nodesSetLabel st newId newName
      (renameFinishPhase st oldId newId, some newId)
    else
      match oldNode with
      | none => (st, none)
      | some oldN =>
        let st := nodesRemove st oldId
        let st := nodesAdd st
          [{ oldN with
             id := newId,
             label := C.wordwrap newName (if oldN.level == 0 then 20 else 15) }]
        (renameFinishPhase st oldId newId, some newId)

/-- One child node record built inside the expandNodeCallback loop: the
normalized id, a wrapped decoded label, value 1, the child level, the
level color, the parent back-pointer and a jittered spawn position. -/
def mkChildNode (C : Ctx α) (page : α) (lvl : Nat) (sx sy : Int) (i : Nat) (subpage : α) : Node α :=
  let off := C.jitter i
  { id := C.norm subpage,
    label := C.wordwrap (C.decodeURI subpage) 15,
    value := 1,
    level := lvl,
    color := NColor.level lvl,
    parent := some page,
    x := sx + off.1,
    y := sy + off.2,
    font := FontColor.full }

/-- The loop of expandNodeCallback (main_functions.js lines 70-103) over
the indexed link list: a child node is collected when its normalized id
is not yet a store id, and an edge is collected when no stored edge
already runs from the page to the child in that direction.  Both checks
read the store as it was before the loop; collected edges carry a
placeholder id that edges.add replaces. -/
def buildChildren (C : Ctx α) (st : St α) (page : α) (lvl : Nat) (sx sy : Int) :
    List (Nat × α) → List (Node α) × List (Edge α)
  | [] => ([], [])
  | (i, sp) :: rest =>
    let subpageID := C.norm sp
    let prev := buildChildren C st page lvl sx sy rest
    let ns := if (nodesGetIds st).contains subpageID then prev.1
              else mkChildNode C page lvl sx sy i sp :: prev.1
    let es := if (getEdgeConnecting st page subpageID).isSome then prev.2
              else { id := 0, efrom := page, eto := subpageID,
                     color := EColor.level lvl, level := lvl,
                     selectionWidth := 2, hoverWidth := 0, width := 1 } :: prev.2
    (ns, es)

/-- expandNodeCallback (main_functions.js lines 58-112).  Missing result
exactly where the source throws: the level of the clicked node is read
first, so a missing page node aborts before any mutation.  Otherwise the
collected children and edges are batch-added and the value of the page
and of every linked id is recomputed. -/
def expandNodeCallback (C : Ctx α) (st : St α) (page : α) (data : List α) : Option (St α) :=
  match nodesGet st page with
  | none => none
  | some node =>
    let lvl := node.level + 1
    let pos := C.spawn page
    let built := buildChildren C st page lvl pos.1 pos.2 data.enum
    let st := nodesAdd st built.1
    let st := edgesAdd st built.2
    let st := updateNodeValue st page
    some (data.foldl (fun s sp => updateNodeValue s (C.norm sp)) st)

/-- expandNode (main_functions.js lines 115-129).  The outcome of the
external getSubPages promise is passed in: on rejection only the loading
icon changes, so the state is returned untouched; on fulfilment the
rename runs, then the callback.  A throw inside the fulfilment handler is
caught by the same catch, leaving whatever state the throw interrupted.
The label of the node is read before the request, so a missing node
returns the state untouched as well. -/
def expandNode (C : Ctx α) (st : St α) (id : α) (result : Except Unit (α × List α)) : St α :=
  match nodesGet st id with
  | none => st
  | some _ =>
    match result with
    | Except.error _ => st
    | Except.ok (redirectedTo, links) =>
      match renameNode C st id redirectedTo with
      | (st1, none) => st1
      | (st1, some newId) =>
        match expandNodeCallback C st1 newId links with
        | none => st1
        | some st2 => st2

/-- One evaluation of nodes.get(currentNode).parent inside the traceback
loop.  A present id whose node is missing makes the source throw (missing
outer result).  For an undefined current value the store get returns the
full item array, whose parent member is undefined, so the walk continues
with an undefined current value instead of throwing. -/
def nodesGetParentStep (st : St α) (cur : Option α) : Option (Option α) :=
  match cur with
  | none => some none
  | some c => (nodesGet st c).map (fun n => n.parent)

/-- The while loop of getTraceBackNodes (main_functions.js lines 137-146)
with the iteration counter expressed as remaining fuel (fuel 0 is the
pass on which the counter has exceeded 100).  Each pass pushes the
current value, notes whether a start page was reached, reads the parent
(which can throw), then either returns the failsafe empty list, the
finished path, or recurses. -/
def traceLoop (st : St α) (sp : List α) : Nat → Option α → List (Option α) → Option (List (Option α))
  | 0, cur, _path =>
    match nodesGetParentStep st cur with
    | none => none
    | some _ => some []
  | f + 1, cur, path =>
    let path := path ++ [cur]
    let fin : Bool := match cur with
      | some c => sp.contains c
      | none => false
    match nodesGetParentStep st cur with
    | none => none
    | some nxt => if fin then some path else traceLoop st sp f nxt path

/-- getTraceBackNodes (main_functions.js lines 132-148): walk parent
pointers from the node, against the start page set of the state. -/
def getTraceBackNodes (st : St α) (node : α) : Option (List (Option α)) :=
  traceLoop st st.startpages 101 (some node) []

/-- One abstract step along the parent chain: from a current id to the
parent recorded on its node, missing when either is absent.  Used only to
state hypotheses about the shape of a parent chain. -/
def chainStep (st : St α) (o : Option α) : Option α :=
  o.bind (fun c => (nodesGet st c).bind (fun n => n.parent))

/-- The parent chain from cur is still live after k steps: the position
holds an id, its node is stored, and it is not a start page. -/
def chainOkFrom (st : St α) (sp : List α) (cur : Option α) (k : Nat) : Bool :=
  match (chainStep st)^[k] cur with
  | some c => (nodesGet st c).isSome && !(sp.contains c)
  | none => false

/-- getTraceBackEdges (main_functions.js lines 151-158).  The source
first reverses its input array in place, then for every consecutive pair
pushes the result of getEdgeConnecting unconditionally, so a pair with no
connecting edge contributes a missing entry. -/
def getTraceBackEdges (st : St α) (tbnodes : List (Option α)) : List (Option Nat) :=
  let t := tbnodes.reverse
  (t.zip t.tail).map (fun p => getEdgeConnectingO st p.1 p.2)

/-- Lines 165-167 of main_functions.js: the stored trace nodes that are
still present get their level color back (only when some are). -/
def resetTraceColors (st : St α) : St α :=
  let modnodes := st.tracenodes.filterMap (fun (o : Option α) => o.bind (fun i => nodesGet st i))
  if modnodes.length > 0 then colorNodes st modnodes 0 else st

/-- Lines 169-175 of main_functions.js: every node gets full font
opacity back. -/
def resetFonts (st : St α) : St α :=
  { st with nodes := st.nodes.map (fun (n : Node α) => { n with font := FontColor.full }) }

/-- Lines 177-184 of main_functions.js: every edge gets width 1 and the
level color of its target node; a missing target makes the source throw
(missing result). -/
def resetEdgeDefaults (st : St α) : Option (List (Edge α)) :=
  st.edges.mapM (fun (e : Edge α) =>
    (nodesGet st e.eto).map (fun tn => { e with width := 1, color := EColor.level tn.level }))

/-- resetProperties (main_functions.js lines 161-190).  A state already
flagged reset is returned unchanged.  Otherwise the selection is cleared,
the stored trace nodes get their level color back, every node gets full
font opacity, every edge gets its default width and color, and the trace
lists and flag are reset. -/
def resetProperties (st : St α) : Option (St α) :=
  if st.isReset then some st
  else
    let st := { st with selectedNode := none }
    let st := resetTraceColors st
    let st := resetFonts st
    match resetEdgeDefaults st with
    | none => none
    | some es =>
      some { st with edges := es, tracenodes := [], traceedges := [], isReset := true }

/-- The per-edge classification of traceBack (main_functions.js lines
209-235): a trace edge gets width 5 and the inherit color, otherwise a
connected edge gets width 3 and the level color of its target (a missing
target makes the source throw), otherwise width 1 and the dimmed color. -/
def classifyEdge (st : St α) (ce : List Nat) (e : Edge α) : Option (Edge α) :=
  if st.traceedges.contains (some e.id) then
    some { e with width := 5, color := EColor.inheritTo }
  else if ce.contains e.id then
    (nodesGet st e.eto).map (fun tn => { e with width := 3, color := EColor.level tn.level })
  else
    some { e with width := 1, color := EColor.dim }

/-- The opening of traceBack past the guard (main_functions.js lines
196-197): record the selection and mark the state modified. -/
def traceSetState (st : St α) (node : α) : St α :=
  { st with selectedNode := some node, isReset := false }

/-- Lines 200-201: store the trace node and edge lists.  The source
reverses the trace node array in place while deriving the edges, so the
stored trace nodes are the reversed walk. -/
def traceStoreTrace (st : St α) (tn : List (Option α)) : St α :=
  { st with tracenodes := tn.reverse, traceedges := getTraceBackEdges st tn }

/-- Lines 238-248: set the font of every node by whether it is the
selected node, a trace node, or adjacent. -/
def traceFonts (st : St α) (node : α) (cn : List α) : St α :=
  { st with
    nodes := st.nodes.map (fun n =>
      let isActive := n.id == node || st.tracenodes.contains (some n.id) || cn.contains n.id
      { n with font := if isActive then FontColor.full else FontColor.dim }) }

/-- The body of traceBack once the guard and the reset pass are done
(main_functions.js lines 196-252): record the selection, compute the
trace node and edge lists, query the adjacent edges and nodes, rewrite
every edge by classification, set every font by activity, and color the
trace nodes with the highlight color. -/
def traceBackCore (st : St α) (node : α) : Option (St α) :=
  let st := traceSetState st node
  match getTraceBackNodes st node with
  | none => none
  | some tn =>
    let st := traceStoreTrace st tn
    let ce := networkGetConnectedEdges st node
    let cn := networkGetConnectedNodes st node
    match st.edges.mapM (classifyEdge st ce) with
    | none => none
    | some es =>
      let st2 := { st with edges := es }
      let st3 := traceFonts st2 node cn
      let modnodes := st3.tracenodes.filterMap (fun (o : Option α) => o.bind (fun i => nodesGet st3 i))
      some (colorNodes st3 modnodes 1)

/-- traceBack (main_functions.js lines 193-254): a node that is already
the selection short-circuits; otherwise a reset pass runs first and the
core recomputes the highlight state. -/
def traceBack (st : St α) (node : α) : Option (St α) :=
  if some node == st.selectedNode then some st
  else (resetProperties st).bind (fun s => traceBackCore s node)

/-- The part of removeNodeEvent after the conditional reset
(bindings.js lines 139-149): capture the neighbors, remove the node,
clear lastClickedNode when it named the removed node, and recompute the
value of every former neighbor. -/
def removeNodePhase (st : St α) (nodeId : α) : St α :=
  let neighbors := networkGetConnectedNodes st nodeId
  let st := nodesRemove st nodeId
  let st := if st.lastClicked == some nodeId then { st with lastClicked := none } else st
  neighbors.foldl (fun s i => updateNodeValue s i) st

/-- removeNodeEvent (bindings.js lines 128-151).  The node under the
pointer is passed in (an external hit test); no node is a no-op.  When
the state is not flagged reset, resetProperties runs before the removal
phase. -/
def removeNodeEvent (st : St α) (nodeAt : Option α) : Option (St α) :=
  match nodeAt with
  | none => some st
  | some nodeId =>
    (if st.isReset then some st else resetProperties st).map (fun s => removeNodePhase s nodeId)

/-! Concrete fixtures over numeric names, used by the witnesses. -/

/-- Context used by the concrete witnesses: names are numbers and every
absent pure helper is the simplest function of the right type. -/
def ctxW : Ctx Nat :=
  { norm := fun a => a, wordwrap := fun a _ => a, unwrap := fun a => a,
    decodeURI := fun a => a, spawn := fun _ => (0, 0), jitter := fun _ => (0, 0) }

/-- A plain node fixture. -/
def nodeW (i lvl : Nat) (par : Option Nat) : Node Nat :=
  { id := i, label := i, value := 1, level := lvl, color := NColor.level lvl,
    parent := par, x := 0, y := 0, font := FontColor.full }

/-- A plain edge fixture. -/
def edgeW (eid a b lvl : Nat) : Edge Nat :=
  { id := eid, efrom := a, eto := b, color := EColor.level lvl, level := lvl,
    selectionWidth := 2, hoverWidth := 0, width := 1 }

/-- Root 0 with children 1 and 2, nothing highlighted. -/
def stTrace : St Nat :=
  { nodes := [nodeW 0 0 none, nodeW 1 1 (some 0), nodeW 2 1 (some 0)],
    edges := [edgeW 0 0 1 1, edgeW 1 0 2 1],
    nextEdgeId := 2, isReset := true, selectedNode := none,
    tracenodes := [], traceedges := [], startpages := [0], lastClicked := none }

/-- stTrace after traceBack on node 1 (the active, highlighted state). -/
def stTraced : St Nat :=
  { nodes := [{ nodeW 0 0 none with color := NColor.highlight },
              { nodeW 1 1 (some 0) with color := NColor.highlight },
              { nodeW 2 1 (some 0) with font := FontColor.dim }],
    edges := [{ edgeW 0 0 1 1 with width := 5, color := EColor.inheritTo },
              { edgeW 1 0 2 1 with width := 1, color := EColor.dim }],
    nextEdgeId := 2, isReset := false, selectedNode := some 1,
    tracenodes := [some 0, some 1], traceedges := [some 0], startpages := [0],
    lastClicked := none }

/-- The traced edge of stTraced, as stored there. -/
def edgeTracedW : Edge Nat :=
  { edgeW 0 0 1 1 with width := 5, color := EColor.inheritTo }

/-- stTraced after resetProperties: everything back to defaults. -/
def stTracedReset : St Nat :=
  { nodes := [nodeW 0 0 none, nodeW 1 1 (some 0), nodeW 2 1 (some 0)],
    edges := [edgeW 0 0 1 1, edgeW 1 0 2 1],
    nextEdgeId := 2, isReset := true, selectedNode := none,
    tracenodes := [], traceedges := [], startpages := [0], lastClicked := none }

/-- Two nodes whose parent pointers form a cycle; the root set names
neither. -/
def stCycle : St Nat :=
  { nodes := [nodeW 1 1 (some 2), nodeW 2 1 (some 1)],
    edges := [], nextEdgeId := 0, isReset := true, selectedNode := none,
    tracenodes := [], traceedges := [], startpages := [0], lastClicked := none }

/-- Two nodes and no edges at all. -/
def stNoEdges : St Nat :=
  { nodes := [nodeW 0 0 none, nodeW 1 1 (some 0)],
    edges := [], nextEdgeId := 0, isReset := true, selectedNode := none,
    tracenodes := [], traceedges := [], startpages := [0], lastClicked := none }

/-- Rename fixture: node 10 (to be renamed) with incoming edge from 2 and
outgoing edge to 3, a pre-existing node 11 (the merge target), and node 3
parented to 10. -/
def stMerge : St Nat :=
  { nodes := [nodeW 10 1 none, nodeW 11 1 none, nodeW 2 0 none, nodeW 3 2 (some 10)],
    edges := [edgeW 0 2 10 1, edgeW 1 10 3 2],
    nextEdgeId := 2, isReset := true, selectedNode := some 10,
    tracenodes := [some 10], traceedges := [], startpages := [10], lastClicked := none }

/-- Rename fixture without a collision target: node 10 with a child 3. -/
def stPure : St Nat :=
  { nodes := [nodeW 10 1 (some 2), nodeW 2 0 none, nodeW 3 2 (some 10)],
    edges := [edgeW 0 2 10 1, edgeW 1 10 3 2],
    nextEdgeId := 2, isReset := true, selectedNode := none,
    tracenodes := [], traceedges := [], startpages := [2], lastClicked := none }

/-- Expansion fixture: a lone root page 0. -/
def stExpand : St Nat :=
  { nodes := [nodeW 0 0 none], edges := [], nextEdgeId := 0, isReset := true,
    selectedNode := none, tracenodes := [], traceedges := [], startpages := [0],
    lastClicked := none }

/-- stTraced after removeNodeEvent on node 1: reset ran first, node 1 is
gone, and the former neighbor 0 got its value recomputed. -/
def stRemoved : St Nat :=
  { nodes := [{ nodeW 0 0 none with value := 2 }, nodeW 2 1 (some 0)],
    edges := [edgeW 0 0 1 1, edgeW 1 0 2 1],
    nextEdgeId := 2, isReset := true, selectedNode := none,
    tracenodes := [], traceedges := [], startpages := [0], lastClicked := none }

/-- A state whose selection is node 5. -/
def stSel : St Nat :=
  { nodes := [nodeW 5 0 none], edges := [], nextEdgeId := 0, isReset := false,
    selectedNode := some 5, tracenodes := [some 5], traceedges := [],
    startpages := [5], lastClicked := none }

/-! Helper lemmas about the store operations. -/

theorem find?_id_map {f : Node α → Node α} (h : ∀ n, (f n).id = n.id)
    (l : List (Node α)) (i : α) :
    (l.map f).find? (fun n => n.id == i) = (l.find? (fun n => n.id == i)).map f := by
  rw [List.find?_map]
  have hp : ((fun (n : Node α) => n.id == i) ∘ f) = fun n => n.id == i := by
    funext n
    simp [Function.comp, h n]
  rw [hp]

theorem nodesGetIds_contains (st : St α) (i : α) :
    ((nodesGetIds st).contains i) = true ↔ (nodesGet st i).isSome = true := by
  simp only [nodesGetIds, nodesGet, List.contains_eq_any_beq, List.any_eq_true,
    List.mem_map, List.find?_isSome, beq_iff_eq]
  constructor
  · rintro ⟨x, ⟨n, hn, rfl⟩, h⟩
    exact ⟨n, hn, h.symm⟩
  · rintro ⟨n, hn, h⟩
    exact ⟨n.id, ⟨n, hn, rfl⟩, h.symm⟩

theorem mem_upsertEdge_self (es : List (Edge α)) (it : Edge α) : it ∈ upsertEdge es it := by
  rw [upsertEdge]
  by_cases h : es.any (fun e => e.id == it.id) = true
  · rw [if_pos h]
    rcases List.any_eq_true.mp h with ⟨e, he, hid⟩
    exact List.mem_map.mpr ⟨e, he, by rw [if_pos hid]⟩
  · rw [if_neg h]
    exact List.mem_append_right _ (List.mem_singleton.mpr rfl)

theorem mem_upsertEdge_preserve (es : List (Edge α)) (it x : Edge α)
    (hx : x ∈ es) (h : it.id = x.id → it = x) : x ∈ upsertEdge es it := by
  rw [upsertEdge]
  by_cases ha : es.any (fun e => e.id == it.id) = true
  · rw [if_pos ha]
    refine List.mem_map.mpr ⟨x, hx, ?_⟩
    by_cases hid : (x.id == it.id) = true
    · rw [if_pos hid]
      exact h (beq_iff_eq.mp hid).symm
    · rw [if_neg hid]
  · rw [if_neg ha]
    exact List.mem_append_left _ hx

theorem mem_foldl_upsertEdge_preserve :
    ∀ (items : List (Edge α)) (es : List (Edge α)) (x : Edge α),
      x ∈ es → (∀ j ∈ items, j.id = x.id → j = x) → x ∈ items.foldl upsertEdge es := by
  intro items
  induction items with
  | nil =>
    intro es x hx _
    simpa using hx
  | cons j rest ih =>
    intro es x hx h
    simp only [List.foldl_cons]
    exact ih (upsertEdge es j) x
      (mem_upsertEdge_preserve es j x hx (h j (List.mem_cons_self j rest)))
      (fun k hk => h k (List.mem_cons_of_mem j hk))

theorem mem_foldl_upsertEdge :
    ∀ (items : List (Edge α)) (es : List (Edge α)) (it : Edge α),
      it ∈ items → (∀ j ∈ items, j.id = it.id → j = it) → it ∈ items.foldl upsertEdge es := by
  intro items
  induction items with
  | nil =>
    intro es it hit _
    cases hit
  | cons j rest ih =>
    intro es it hit h
    simp only [List.foldl_cons]
    rcases List.mem_cons.mp hit with hj | hrest
    · subst hj
      exact mem_foldl_upsertEdge_preserve rest (upsertEdge es it) it
        (mem_upsertEdge_self es it)
        (fun k hk => h k (List.mem_cons_of_mem it hk))
    · exact ih (upsertEdge es j) it hrest (fun k hk => h k (List.mem_cons_of_mem j hk))

/-! Reset lemmas. -/

theorem resetProperties_of_isReset {st : St α} (h : st.isReset = true) :
    resetProperties st = some st := by
  simp [resetProperties, h]

theorem resetProperties_active_fields {st st' : St α} (hf : st.isReset = false)
    (h : resetProperties st = some st') :
    st'.tracenodes = [] ∧ st'.traceedges = [] ∧ st'.selectedNode = none ∧
      st'.isReset = true := by
  simp only [resetProperties, hf, Bool.false_eq_true, if_false] at h
  split at h
  · exact absurd h (by simp)
  · obtain rfl := Option.some.inj h
    refine ⟨rfl, rfl, ?_, rfl⟩
    simp [resetFonts, resetTraceColors, apply_ite St.selectedNode, colorNodes]

theorem resetProperties_isReset {st st' : St α} (h : resetProperties st = some st') :
    st'.isReset = true := by
  cases hr : st.isReset with
  | false => exact (resetProperties_active_fields hr h).2.2.2
  | true =>
    obtain rfl := Option.some.inj ((resetProperties_of_isReset hr).symm.trans h)
    exact hr

/-! Claim theorems. -/

/-- Claim C4: when the external link-source request of an expansion
rejects, the expansion performs no mutation of the node and edge
collections - the state after the failed expand equals the state before
it. -/
theorem expandNode_error_no_mutation (C : Ctx α) (st : St α) (i : α) :
    expandNode C st i (Except.error ()) = st := by
  cases h : nodesGet st i <;> simp [expandNode, h]

/-- Claim C10: invoking traceBack on the node that is already the current
selection is a complete no-op: no reset pass runs, and the graph, the
selection state and all derived visual state are returned unchanged. -/
theorem traceBack_selected_noop (st : St α) (node : α)
    (h : st.selectedNode = some node) : traceBack st node = some st := by
  simp [traceBack, h]

/-- Witness for claim C10 at a concrete highlighted state. -/
theorem traceBack_selected_noop_witness : traceBack stSel 5 = some stSel :=
  traceBack_selected_noop stSel 5 rfl

/-- Claim C5: Reset is idempotent - invoking it while the flag already
indicates Reset returns the state unchanged; a Reset transition from an
active state clears tracenodes, traceedges and the selection and sets the
flag; and resetting twice in a row yields exactly the state of resetting
once. -/
theorem resetProperties_idempotent (st st' : St α) :
    (st.isReset = true → resetProperties st = some st) ∧
    (st.isReset = false → resetProperties st = some st' →
      st'.tracenodes = [] ∧ st'.traceedges = [] ∧ st'.selectedNode = none ∧
        st'.isReset = true) ∧
    (resetProperties st = some st' → resetProperties st' = some st') :=
  ⟨fun h => resetProperties_of_isReset h,
   fun hf h => resetProperties_active_fields hf h,
   fun h => resetProperties_of_isReset (resetProperties_isReset h)⟩

/-- Witness for claim C5: an already-reset state is returned unchanged,
and resetting the highlighted fixture clears the trace state and is
idempotent. -/
theorem resetProperties_idempotent_witness :
    resetProperties stTrace = some stTrace ∧
    (stTracedReset.tracenodes = [] ∧ stTracedReset.traceedges = [] ∧
      stTracedReset.selectedNode = none ∧ stTracedReset.isReset = true) ∧
    resetProperties stTracedReset = some stTracedReset :=
  ⟨(resetProperties_idempotent stTrace stTrace).1 rfl,
   (resetProperties_idempotent stTraced stTracedReset).2.1 rfl (by decide),
   (resetProperties_idempotent stTraced stTracedReset).2.2 (by decide)⟩

/-! Traceback cycle lemmas. -/

theorem chainOkFrom_succ (st : St α) (sp : List α) (cur : Option α) (k : Nat) :
    chainOkFrom st sp cur (k + 1) = chainOkFrom st sp (chainStep st cur) k := by
  simp [chainOkFrom, Function.iterate_succ_apply]

theorem traceLoop_not_reaching (st : St α) (sp : List α) :
    ∀ (fuel : Nat) (cur : Option α) (path : List (Option α)),
      (∀ k, k ≤ fuel → chainOkFrom st sp cur k = true) →
      traceLoop st sp fuel cur path = some [] := by
  intro fuel
  induction fuel with
  | zero =>
    intro cur path h
    have h0 := h 0 (Nat.le_refl 0)
    cases cur with
    | none => simp [chainOkFrom] at h0
    | some c =>
      simp only [chainOkFrom, Function.iterate_zero_apply, Bool.and_eq_true] at h0
      obtain ⟨n, hn⟩ := Option.isSome_iff_exists.mp h0.1
      simp [traceLoop, nodesGetParentStep, hn]
  | succ f ih =>
    intro cur path h
    have h0 := h 0 (Nat.zero_le _)
    cases cur with
    | none => simp [chainOkFrom] at h0
    | some c =>
      simp only [chainOkFrom, Function.iterate_zero_apply, Bool.and_eq_true,
        Bool.not_eq_true'] at h0
      obtain ⟨n, hn⟩ := Option.isSome_iff_exists.mp h0.1
      have hstep : chainStep st (some c) = n.parent := by
        simp [chainStep, hn]
      simp only [traceLoop, nodesGetParentStep, hn, Option.map_some', h0.2]
      rw [if_neg (by simp [h0.2])]
      apply ih
      intro k hk
      have hk1 := h (k + 1) (Nat.succ_le_succ hk)
      rwa [chainOkFrom_succ, hstep] at hk1

/-- Claim C3: when the parent chain from a node stays on stored non-root
nodes for the whole 100-hop bound (for example a parent cycle), the
traceback node computation returns the empty sequence instead of looping
or throwing. -/
theorem getTraceBackNodes_cycle_empty (st : St α) (node : α)
    (h : ∀ k, k ≤ 101 → chainOkFrom st st.startpages (some node) k = true) :
    getTraceBackNodes st node = some [] :=
  traceLoop_not_reaching st st.startpages 101 (some node) [] h

/-- Witness for claim C3 on the two-node parent cycle fixture. -/
theorem getTraceBackNodes_cycle_empty_witness :
    (∀ k, k ≤ 101 → chainOkFrom stCycle stCycle.startpages (some 1) k = true) ∧
    getTraceBackNodes stCycle 1 = some [] :=
  ⟨by decide, getTraceBackNodes_cycle_empty stCycle 1 (by decide)⟩

/-! Trace edge derivation lemmas. -/

theorem zip_getElem?_pair {β : Type u} (l l' : List β) (i : Nat) :
    (l.zip l')[i]? =
      match l[i]?, l'[i]? with
      | some a, some b => some (a, b)
      | _, _ => none := by
  induction l generalizing l' i with
  | nil => cases l' <;> cases i <;> rfl
  | cons a t ih =>
    cases l' with
    | nil => cases i <;> simp
    | cons b t' =>
      cases i with
      | zero => simp
      | succ j => simpa using ih t' j

/-- Counterexample for claim C7: on a store with no edges, deriving trace
edges from the two-node sequence yields a one-element sequence holding a
placeholder for the missing edge, which is not shorter than the node
count minus one. -/
theorem getTraceBackEdges_counterexample :
    getTraceBackEdges stNoEdges [some 0, some 1] = [none] ∧
    ¬((getTraceBackEdges stNoEdges [some 0, some 1]).length <
        ([some 0, some 1] : List (Option Nat)).length - 1) := by
  decide

/-- Claim C7 as amended: the traceback edge derivation never fails, and
returns a sequence of length exactly the node-sequence length minus one
in which every consecutive pair (in the reversed, parent-ward order) that
has no connecting edge in the store contributes an empty placeholder at
its position rather than being dropped. -/
theorem getTraceBackEdges_placeholder (st : St α) (tb : List (Option α)) :
    (getTraceBackEdges st tb).length = tb.length - 1 ∧
    (∀ (i : Nat) (a b : Option α),
      (tb.reverse)[i]? = some a → (tb.reverse)[i + 1]? = some b →
      getEdgeConnectingO st a b = none →
      (getTraceBackEdges st tb)[i]? = some none) := by
  constructor
  · simp only [getTraceBackEdges, List.length_map, List.length_zip, List.length_tail,
      List.length_reverse]
    omega
  · intro i a b ha hb hn
    simp only [getTraceBackEdges, List.getElem?_map]
    rw [zip_getElem?_pair]
    rw [List.getElem?_tail, ha, hb]
    simp [hn]

/-- Witness for the amended claim C7 on the edgeless fixture: the
derived sequence has length one and carries the placeholder at position
zero. -/
theorem getTraceBackEdges_placeholder_witness :
    (getTraceBackEdges stNoEdges [some 0, some 1]).length = 1 ∧
    (getTraceBackEdges stNoEdges [some 0, some 1])[0]? = some none :=
  ⟨(getTraceBackEdges_placeholder stNoEdges [some 0, some 1]).1,
   (getTraceBackEdges_placeholder stNoEdges [some 0, some 1]).2 0 (some 1) (some 0)
     (by decide) (by decide) (by decide)⟩

/-! Rename lemmas. -/

theorem nodesGet_renameEdgePhase (st : St α) (o nw i : α) :
    nodesGet (renameEdgePhase st o nw) i = nodesGet st i := rfl

theorem renameFinishPhase_nodes (st : St α) (o nw : α) :
    (renameFinishPhase st o nw).nodes = (repointParents st o nw).nodes := by
  unfold renameFinishPhase
  simp [apply_ite St.nodes]

theorem nodesGet_append_one (s : St α) (it : Node α) (i : α) :
    nodesGet { s with nodes := s.nodes ++ [it] } i
      = (s.nodes.find? (fun n => n.id == i)).or ([it].find? (fun n => n.id == i)) := by
  show ((s.nodes ++ [it]).find? fun n => n.id == i) = _
  rw [List.find?_append]

theorem nodesGet_renameFinishPhase (st : St α) (o nw i : α) :
    nodesGet (renameFinishPhase st o nw) i =
      (nodesGet st i).map (fun x =>
        if x.parent == some o then { x with parent := some nw } else x) := by
  have hfun : ∀ n : Node α,
      (if n.parent == some o then { n with parent := some nw } else n).id = n.id := by
    intro n
    by_cases hp : (n.parent == some o) = true <;> simp [hp]
  have h1 : nodesGet (renameFinishPhase st o nw) i
      = (repointParents st o nw).nodes.find? (fun n => n.id == i) := by
    rw [nodesGet, renameFinishPhase_nodes]
  have h2 : (repointParents st o nw).nodes
      = st.nodes.map (fun x =>
          if x.parent == some o then { x with parent := some nw } else x) := rfl
  rw [h1, h2, find?_id_map hfun]
  rfl

/-- Claim C8: a rename whose normalized new id collides with no existing
node deletes the old record and inserts, under the new id, a record
carrying over every attribute of the old node except id and label; in
particular level, parent and the x/y position are unchanged. -/
theorem renameNode_pure_preserves (C : Ctx α) (st : St α) (oldId newName newId : α)
    (oldN : Node α)
    (hnorm : C.norm newName = newId) (hne : newId ≠ oldId)
    (hold : nodesGet st oldId = some oldN)
    (hnew : nodesGet st newId = none)
    (hpar : oldN.parent ≠ some oldId) :
    (renameNode C st oldId newName).2 = some newId ∧
    nodesGet (renameNode C st oldId newName).1 newId =
      some { oldN with
             id := newId,
             label := C.wordwrap newName (if oldN.level == 0 then 20 else 15) } := by
  have hguard : (newId == oldId) = false := beq_eq_false_iff_ne.mpr hne
  have hallnot : ∀ x ∈ st.nodes, ¬((fun (n : Node α) => n.id == newId) x = true) :=
    List.find?_eq_none.mp hnew
  simp only [renameNode, hguard, Bool.false_eq_true, if_false, hnorm,
    nodesGet_renameEdgePhase, hnew, Option.isSome_none, hold]
  refine ⟨trivial, ?_⟩
  rw [nodesGet_renameFinishPhase]
  have hcontains :
      ((nodesGetIds (nodesRemove (renameEdgePhase st oldId newId) oldId)).contains newId)
        = false := by
    rw [Bool.eq_false_iff]
    intro hc
    have hsome := (nodesGetIds_contains _ newId).mp hc
    rw [Option.isSome_iff_exists] at hsome
    obtain ⟨n, hn⟩ := hsome
    have hmem := List.mem_of_find?_eq_some hn
    have := List.find?_some hn
    exact hallnot n (List.mem_of_mem_filter hmem) this
  simp only [nodesAdd, List.foldl_cons, List.foldl_nil, hcontains, Bool.false_eq_true,
    if_false]
  have hleft :
      ((nodesRemove (renameEdgePhase st oldId newId) oldId).nodes.find?
        (fun n => n.id == newId)) = none := by
    apply List.find?_eq_none.mpr
    intro x hx
    exact hallnot x (List.mem_of_mem_filter hx)
  rw [nodesGet_append_one, hleft, Option.none_or]
  have hfound : (([{ oldN with
        id := newId,
        label := C.wordwrap newName (if oldN.level == 0 then 20 else 15) }] :
      List (Node α)).find? fun n => n.id == newId) = some { oldN with
        id := newId,
        label := C.wordwrap newName (if oldN.level == 0 then 20 else 15) } := by
    simp [List.find?]
  rw [hfound]
  have hparbeq : (oldN.parent == some oldId) = false := beq_eq_false_iff_ne.mpr hpar
  simp [hparbeq]
  intro hcontra
  exact absurd hcontra hpar

/-- Witness for claim C8 on the collision-free rename fixture. -/
theorem renameNode_pure_preserves_witness :
    (renameNode ctxW stPure 10 11).2 = some 11 ∧
    nodesGet (renameNode ctxW stPure 10 11).1 11 =
      some { nodeW 10 1 (some 2) with
             id := 11,
             label := ctxW.wordwrap 11 (if (nodeW 10 1 (some 2)).level == 0 then 20 else 15) } :=
  renameNode_pure_preserves ctxW stPure 10 11 11 (nodeW 10 1 (some 2))
    rfl (by decide) (by decide) (by decide) (by decide)

/-! Removal lemmas. -/

theorem nodesGet_updateNodeValue_none {s : St α} {i j : α} (h : nodesGet s i = none) :
    nodesGet (updateNodeValue s j) i = none := by
  have hfun : ∀ n : Node α,
      (if n.id == j then { n with value := degree s j } else n).id = n.id := by
    intro n
    by_cases hn : (n.id == j) = true <;> simp [hn]
  have h1 : nodesGet (updateNodeValue s j) i
      = ((s.nodes.map (fun n => if n.id == j then { n with value := degree s j } else n)).find?
          (fun n => n.id == i)) := rfl
  rw [h1, find?_id_map hfun]
  have h2 : (s.nodes.find? fun n => n.id == i) = none := h
  rw [h2]
  rfl

theorem foldl_updateNodeValue_nodesGet_none (l : List α) :
    ∀ (s : St α) (i : α), nodesGet s i = none →
      nodesGet (l.foldl (fun s j => updateNodeValue s j) s) i = none := by
  induction l with
  | nil =>
    intro s i h
    exact h
  | cons a t ih =>
    intro s i h
    rw [List.foldl_cons]
    exact ih _ i (nodesGet_updateNodeValue_none h)

theorem foldl_updateNodeValue_selectedNode (l : List α) :
    ∀ s : St α, (l.foldl (fun s j => updateNodeValue s j) s).selectedNode = s.selectedNode := by
  induction l with
  | nil =>
    intro s
    rfl
  | cons a t ih =>
    intro s
    rw [List.foldl_cons, ih]
    rfl

theorem foldl_updateNodeValue_tracenodes (l : List α) :
    ∀ s : St α, (l.foldl (fun s j => updateNodeValue s j) s).tracenodes = s.tracenodes := by
  induction l with
  | nil =>
    intro s
    rfl
  | cons a t ih =>
    intro s
    rw [List.foldl_cons, ih]
    rfl

theorem nodesGet_nodesRemove_self (s : St α) (i : α) :
    nodesGet (nodesRemove s i) i = none := by
  apply List.find?_eq_none.mpr
  intro x hx
  have := List.of_mem_filter hx
  simpa using this

theorem removeNodePhase_nodesGet_self (s : St α) (i : α) :
    nodesGet (removeNodePhase s i) i = none := by
  unfold removeNodePhase
  apply foldl_updateNodeValue_nodesGet_none
  by_cases hc : ((nodesRemove s i).lastClicked == some i) = true
  · rw [if_pos hc]
    exact nodesGet_nodesRemove_self s i
  · rw [if_neg hc]
    exact nodesGet_nodesRemove_self s i

theorem removeNodePhase_selectedNode (s : St α) (i : α) :
    (removeNodePhase s i).selectedNode = s.selectedNode := by
  unfold removeNodePhase
  rw [foldl_updateNodeValue_selectedNode]
  simp [apply_ite St.selectedNode, nodesRemove]

theorem removeNodePhase_tracenodes (s : St α) (i : α) :
    (removeNodePhase s i).tracenodes = s.tracenodes := by
  unfold removeNodePhase
  rw [foldl_updateNodeValue_tracenodes]
  simp [apply_ite St.tracenodes, nodesRemove]

/-- Claim C6: removing a node that is the current selection or sits in
the active trace while the state is not Reset performs the full reset
pass on the still-complete state before the node is deleted, so the
selection and trace state of the resulting state reference no removed
node. -/
theorem removeNodeEvent_resets_first (st st' : St α) (nodeId : α)
    (hreset : st.isReset = false)
    (href : st.selectedNode = some nodeId ∨ some nodeId ∈ st.tracenodes)
    (h : removeNodeEvent st (some nodeId) = some st') :
    removeNodeEvent st (some nodeId)
      = (resetProperties st).map (fun s => removeNodePhase s nodeId) ∧
    nodesGet st' nodeId = none ∧ st'.selectedNode = none ∧ st'.tracenodes = [] := by
  have hfact : removeNodeEvent st (some nodeId)
      = (resetProperties st).map (fun s => removeNodePhase s nodeId) := by
    simp [removeNodeEvent, hreset]
  refine ⟨hfact, ?_⟩
  rw [hfact] at h
  cases hr : resetProperties st with
  | none =>
    rw [hr] at h
    cases h
  | some s1 =>
    rw [hr] at h
    simp only [Option.map_some'] at h
    obtain rfl := Option.some.inj h
    obtain ⟨ht, _hte, hsel, _hflag⟩ := resetProperties_active_fields hreset hr
    exact ⟨removeNodePhase_nodesGet_self s1 nodeId,
      by rw [removeNodePhase_selectedNode, hsel],
      by rw [removeNodePhase_tracenodes, ht]⟩

/-- Witness for claim C6: removing the selected, traced node 1 of the
highlighted fixture. -/
theorem removeNodeEvent_resets_first_witness :
    removeNodeEvent stTraced (some 1)
      = (resetProperties stTraced).map (fun s => removeNodePhase s 1) ∧
    nodesGet stRemoved 1 = none ∧ stRemoved.selectedNode = none ∧
      stRemoved.tracenodes = [] :=
  removeNodeEvent_resets_first stTraced stRemoved 1 rfl (Or.inl rfl) (by decide)

/-! Rename merge lemmas. -/

theorem renameFinishPhase_edges (st : St α) (o nw : α) :
    (renameFinishPhase st o nw).edges = st.edges := by
  unfold renameFinishPhase
  simp [apply_ite St.edges, repointParents]

theorem nodesGet_nodesSetLabel (s : St α) (i j lbl : α) :
    nodesGet (nodesSetLabel s i lbl) j
      = (nodesGet s j).map (fun n => if n.id == i then { n with label := lbl } else n) := by
  have hfun : ∀ n : Node α, (if n.id == i then { n with label := lbl } else n).id = n.id := by
    intro n
    by_cases hn : (n.id == i) = true <;> simp [hn]
  have h1 : nodesGet (nodesSetLabel s i lbl) j
      = ((s.nodes.map (fun n => if n.id == i then { n with label := lbl } else n)).find?
          (fun n => n.id == j)) := rfl
  rw [h1, find?_id_map hfun]
  rfl

theorem renameEdgePhase_mem_to (st : St α) (oldId newId : α) (e : Edge α)
    (hN : (st.edges.map (fun x => x.id)).Nodup)
    (he : e ∈ st.edges) (ht : e.eto = oldId) (hf : e.efrom ≠ oldId) :
    { e with eto := newId } ∈ (renameEdgePhase st oldId newId).edges := by
  have hinj := List.inj_on_of_nodup_map hN
  apply mem_foldl_upsertEdge
  · exact List.mem_append_right _
      (List.mem_map.mpr ⟨e, List.mem_filter.mpr ⟨he, by simp [ht]⟩, rfl⟩)
  · intro j hj hid
    rcases List.mem_append.mp hj with hjf | hjt
    · rcases List.mem_map.mp hjf with ⟨f, hff, rfl⟩
      obtain ⟨hfmem, hfp⟩ := List.mem_filter.mp hff
      have hfe : f = e := hinj hfmem he hid
      subst hfe
      exact absurd (beq_iff_eq.mp hfp) hf
    · rcases List.mem_map.mp hjt with ⟨f, hff, rfl⟩
      obtain ⟨hfmem, _hfp⟩ := List.mem_filter.mp hff
      have hfe : f = e := hinj hfmem he hid
      subst hfe
      rfl

theorem renameEdgePhase_mem_from (st : St α) (oldId newId : α) (e : Edge α)
    (hN : (st.edges.map (fun x => x.id)).Nodup)
    (he : e ∈ st.edges) (hf : e.efrom = oldId) (ht : e.eto ≠ oldId) :
    { e with efrom := newId } ∈ (renameEdgePhase st oldId newId).edges := by
  have hinj := List.inj_on_of_nodup_map hN
  apply mem_foldl_upsertEdge
  · exact List.mem_append_left _
      (List.mem_map.mpr ⟨e, List.mem_filter.mpr ⟨he, by simp [hf]⟩, rfl⟩)
  · intro j hj hid
    rcases List.mem_append.mp hj with hjf | hjt
    · rcases List.mem_map.mp hjf with ⟨f, hff, rfl⟩
      obtain ⟨hfmem, _hfp⟩ := List.mem_filter.mp hff
      have hfe : f = e := hinj hfmem he hid
      subst hfe
      rfl
    · rcases List.mem_map.mp hjt with ⟨f, hff, rfl⟩
      obtain ⟨hfmem, hfp⟩ := List.mem_filter.mp hff
      have hfe : f = e := hinj hfmem he hid
      subst hfe
      exact absurd (beq_iff_eq.mp hfp) ht

/-- Claim C1: merging rename - with edges X to oldId and oldId to Y, a
distinct pre-existing node newId that normalizes the new display name,
and X, Y other nodes, renameNode re-points the edges to X to newId and
newId to Y, ends with no record under oldId, and factors as the edge
re-pointing phase (which leaves every node record untouched) followed by
the node mutations. -/
theorem renameNode_merge_repoints (C : Ctx α) (st : St α) (oldId newName newId X Y : α)
    (e1 e2 : Edge α)
    (hnorm : C.norm newName = newId) (hne : newId ≠ oldId)
    (hnew : (nodesGet st newId).isSome = true)
    (hN : (st.edges.map (fun x => x.id)).Nodup)
    (he1 : e1 ∈ st.edges) (he1f : e1.efrom = X) (he1t : e1.eto = oldId) (hX : X ≠ oldId)
    (he2 : e2 ∈ st.edges) (he2f : e2.efrom = oldId) (he2t : e2.eto = Y) (hY : Y ≠ oldId) :
    (∃ e ∈ (renameNode C st oldId newName).1.edges, e.efrom = X ∧ e.eto = newId) ∧
    (∃ e ∈ (renameNode C st oldId newName).1.edges, e.efrom = newId ∧ e.eto = Y) ∧
    nodesGet (renameNode C st oldId newName).1 oldId = none ∧
    (renameNode C st oldId newName).1
      = renameFinishPhase
          (nodesSetLabel (nodesRemove (renameEdgePhase st oldId newId) oldId) newId newName)
          oldId newId ∧
    (renameEdgePhase st oldId newId).nodes = st.nodes := by
  have hguard : (newId == oldId) = false := beq_eq_false_iff_ne.mpr hne
  have hred : renameNode C st oldId newName
      = (renameFinishPhase
          (nodesSetLabel (nodesRemove (renameEdgePhase st oldId newId) oldId) newId newName)
          oldId newId, some newId) := by
    simp only [renameNode, hnorm, hguard, Bool.false_eq_true, if_false,
      nodesGet_renameEdgePhase, hnew, if_true]
  have hedges : (renameNode C st oldId newName).1.edges
      = (renameEdgePhase st oldId newId).edges := by
    rw [hred]
    rw [renameFinishPhase_edges]
    rfl
  refine ⟨?_, ?_, ?_, ?_, rfl⟩
  · refine ⟨{ e1 with eto := newId }, ?_, by simp [he1f], rfl⟩
    rw [hedges]
    exact renameEdgePhase_mem_to st oldId newId e1 hN he1 he1t (by rw [he1f]; exact hX)
  · refine ⟨{ e2 with efrom := newId }, ?_, rfl, by simp [he2t]⟩
    rw [hedges]
    exact renameEdgePhase_mem_from st oldId newId e2 hN he2 he2f (by rw [he2t]; exact hY)
  · rw [hred]
    rw [nodesGet_renameFinishPhase, nodesGet_nodesSetLabel, nodesGet_nodesRemove_self]
    rfl
  · rw [hred]

/-- Witness for claim C1 on the merge fixture (oldId 10, pre-existing
node 11, incoming edge from 2, outgoing edge to 3). -/
theorem renameNode_merge_repoints_witness :
    (∃ e ∈ (renameNode ctxW stMerge 10 11).1.edges, e.efrom = 2 ∧ e.eto = 11) ∧
    (∃ e ∈ (renameNode ctxW stMerge 10 11).1.edges, e.efrom = 11 ∧ e.eto = 3) ∧
    nodesGet (renameNode ctxW stMerge 10 11).1 10 = none ∧
    (renameNode ctxW stMerge 10 11).1
      = renameFinishPhase
          (nodesSetLabel (nodesRemove (renameEdgePhase stMerge 10 11) 10) 11 11) 10 11 ∧
    (renameEdgePhase stMerge 10 11).nodes = stMerge.nodes :=
  renameNode_merge_repoints ctxW stMerge 10 11 11 2 3 (edgeW 0 2 10 1) (edgeW 1 10 3 2)
    rfl (by decide) (by decide) (by decide) (by decide) rfl rfl (by decide)
    (by decide) rfl rfl (by decide)

/-! Expansion duplicate-suppression lemmas. -/

theorem countP_le_one_of_nodup (t : α) :
    ∀ (l : List (Node α)), (l.map (fun n => n.id)).Nodup →
      l.countP (fun n => n.id == t) ≤ 1 := by
  intro l
  induction l with
  | nil =>
    intro _
    simp
  | cons n rest ih =>
    intro hN
    rw [List.map_cons, List.nodup_cons] at hN
    rw [List.countP_cons]
    by_cases hn : (n.id == t) = true
    · have h0 : rest.countP (fun m => m.id == t) = 0 := by
        rw [List.countP_eq_zero]
        intro m hm hmp
        exact hN.1 (List.mem_map.mpr
          ⟨m, hm, (beq_iff_eq.mp hmp).trans (beq_iff_eq.mp hn).symm⟩)
      simp [h0, hn]
    · simp only [hn, if_false]
      simpa using ih hN.2

theorem countP_pos_of_contains (s : St α) (t : α)
    (hc : (nodesGetIds s).contains t = true) :
    0 < s.nodes.countP (fun n => n.id == t) := by
  rw [List.countP_pos_iff]
  have hs := (nodesGetIds_contains s t).mp hc
  rw [nodesGet] at hs
  rw [List.find?_isSome] at hs
  exact hs

theorem countP_zero_of_not_contains (s : St α) (t : α)
    (hc : (nodesGetIds s).contains t = false) :
    s.nodes.countP (fun n => n.id == t) = 0 := by
  rw [List.countP_eq_zero]
  intro n hn hp
  have : (nodesGetIds s).contains t = true := by
    rw [nodesGetIds_contains, nodesGet, Option.isSome_iff_exists]
    have : s.nodes.any (fun n => n.id == t) = true := List.any_eq_true.mpr ⟨n, hn, hp⟩
    have hsome : (s.nodes.find? (fun n => n.id == t)).isSome = true :=
      List.find?_isSome.mpr ⟨n, hn, hp⟩
    rw [Option.isSome_iff_exists] at hsome
    exact hsome
  rw [this] at hc
  cases hc

theorem cnt_nodesAdd_one :
    ∀ (items : List (Node α)) (s : St α) (t : α),
      s.nodes.countP (fun n => n.id == t) = 1 →
      (nodesAdd s items).nodes.countP (fun n => n.id == t) = 1 := by
  intro items
  induction items with
  | nil =>
    intro s t h1
    exact h1
  | cons it rest ih =>
    intro s t h1
    have hstep : nodesAdd s (it :: rest)
        = nodesAdd (if (nodesGetIds s).contains it.id then s
            else { s with nodes := s.nodes ++ [it] }) rest := rfl
    rw [hstep]
    by_cases hc : ((nodesGetIds s).contains it.id) = true
    · rw [if_pos hc]
      exact ih s t h1
    · rw [if_neg hc]
      apply ih
      show List.countP (fun n => n.id == t) (s.nodes ++ [it]) = 1
      rw [List.countP_append]
      by_cases hidt : (it.id == t) = true
      · exfalso
        apply hc
        rw [beq_iff_eq.mp hidt]
        rw [nodesGetIds_contains, nodesGet]
        apply List.find?_isSome.mpr
        exact List.countP_pos_iff.mp (by rw [h1]; exact Nat.zero_lt_one)
      · simp [List.countP_cons, hidt, h1]

theorem cnt_nodesAdd_zero :
    ∀ (items : List (Node α)) (s : St α) (t : α),
      s.nodes.countP (fun n => n.id == t) = 0 →
      (∃ it ∈ items, it.id = t) →
      (nodesAdd s items).nodes.countP (fun n => n.id == t) = 1 := by
  intro items
  induction items with
  | nil =>
    intro s t _ hex
    rcases hex with ⟨it, hit, _⟩
    cases hit
  | cons it rest ih =>
    intro s t h0 hex
    have hstep : nodesAdd s (it :: rest)
        = nodesAdd (if (nodesGetIds s).contains it.id then s
            else { s with nodes := s.nodes ++ [it] }) rest := rfl
    rw [hstep]
    by_cases hc : ((nodesGetIds s).contains it.id) = true
    · rw [if_pos hc]
      rcases hex with ⟨w, hw, hwt⟩
      rcases List.mem_cons.mp hw with rfl | hwrest
      · exfalso
        rw [hwt] at hc
        have := countP_pos_of_contains s t hc
        rw [h0] at this
        exact Nat.lt_irrefl 0 this
      · exact ih s t h0 ⟨w, hwrest, hwt⟩
    · rw [if_neg hc]
      by_cases hidt : (it.id == t) = true
      · apply cnt_nodesAdd_one rest
        show List.countP (fun n => n.id == t) (s.nodes ++ [it]) = 1
        rw [List.countP_append, h0, List.countP_cons]
        simp [hidt]
      · apply ih
        · show List.countP (fun n => n.id == t) (s.nodes ++ [it]) = 0
          rw [List.countP_append, h0, List.countP_cons]
          simp [hidt]
        · rcases hex with ⟨w, hw, hwt⟩
          rcases List.mem_cons.mp hw with rfl | hwrest
          · exact absurd (beq_iff_eq.mpr hwt) (by simpa using hidt)
          · exact ⟨w, hwrest, hwt⟩

theorem countP_updateNodeValue (s : St α) (j t : α) :
    (updateNodeValue s j).nodes.countP (fun n => n.id == t)
      = s.nodes.countP (fun n => n.id == t) := by
  have h1 : (updateNodeValue s j).nodes
      = s.nodes.map (fun n => if n.id == j then { n with value := degree s j } else n) := rfl
  rw [h1, List.countP_map]
  apply List.countP_congr
  intro n _
  by_cases hn : (n.id == j) = true <;> simp [Function.comp, hn]

theorem countP_foldl_updateNodeValue {β : Type u} (g : β → α) (l : List β) :
    ∀ (s : St α) (t : α),
      ((l.foldl (fun s j => updateNodeValue s (g j)) s).nodes.countP (fun n => n.id == t))
        = s.nodes.countP (fun n => n.id == t) := by
  induction l with
  | nil =>
    intro s t
    rfl
  | cons x rest ih =>
    intro s t
    rw [List.foldl_cons, ih, countP_updateNodeValue]

theorem edgesAdd_nodes :
    ∀ (items : List (Edge α)) (s : St α), (edgesAdd s items).nodes = s.nodes := by
  intro items
  induction items with
  | nil =>
    intro s
    rfl
  | cons it rest ih =>
    intro s
    show (edgesAdd _ rest).nodes = s.nodes
    rw [ih]

theorem buildChildren_mem (C : Ctx α) (st : St α) (page : α) (lvl : Nat) (sx sy : Int) :
    ∀ (l : List (Nat × α)) (t : α),
      (∃ p ∈ l, C.norm p.2 = t) → ((nodesGetIds st).contains t) = false →
      ∃ it ∈ (buildChildren C st page lvl sx sy l).1, it.id = t := by
  intro l
  induction l with
  | nil =>
    intro t hex _
    rcases hex with ⟨p, hp, _⟩
    cases hp
  | cons hd rest ih =>
    intro t hex hco
    obtain ⟨i, sp⟩ := hd
    rcases hex with ⟨p, hp, hpt⟩
    rcases List.mem_cons.mp hp with rfl | hprest
    · refine ⟨mkChildNode C page lvl sx sy i sp, ?_, by simp [mkChildNode, hpt]⟩
      have hcsp : ((nodesGetIds st).contains (C.norm sp)) = false := by
        rw [show C.norm (i, sp).2 = C.norm sp from rfl] at hpt
        rw [hpt]
        exact hco
      simp only [buildChildren, hcsp, Bool.false_eq_true, if_false]
      by_cases he : (getEdgeConnecting st page (C.norm sp)).isSome = true <;>
        simp [he, List.mem_cons]
    · rcases ih t ⟨p, hprest, hpt⟩ hco with ⟨it, hit, hitt⟩
      refine ⟨it, ?_, hitt⟩
      simp only [buildChildren]
      split
      · exact hit
      · exact List.mem_cons_of_mem _ hit

theorem exists_enum_of_mem {l : List α} {a : α} (h : a ∈ l) :
    ∃ i, (i, a) ∈ l.enum := by
  have h2 : a ∈ l.enum.map Prod.snd := by
    rw [List.enum_map_snd]
    exact h
  rcases List.mem_map.mp h2 with ⟨p, hp, hpa⟩
  refine ⟨p.1, ?_⟩
  have : (p.1, a) = p := by
    rw [← hpa]
  rw [this]
  exact hp

/-- Claim C2: for topic names a and b normalizing to the same id, the
expansion workflow existence check guarantees that after the callback
runs (with both names in the same link list, or the id already stored
from an earlier insertion) the store holds exactly one node under that
id. -/
theorem expandNodeCallback_unique_node (C : Ctx α) (st : St α) (page : α)
    (data : List α) (a b t : α) (nd : Node α)
    (hN : (st.nodes.map (fun n => n.id)).Nodup)
    (hp : nodesGet st page = some nd)
    (ha : a ∈ data) (hb : b ∈ data) (hab : C.norm a = C.norm b) (ht : C.norm a = t) :
    ∃ st2, expandNodeCallback C st page data = some st2 ∧
      st2.nodes.countP (fun n => n.id == t) = 1 := by
  simp only [expandNodeCallback, hp]
  refine ⟨_, rfl, ?_⟩
  rw [countP_foldl_updateNodeValue, countP_updateNodeValue, edgesAdd_nodes]
  by_cases hc : ((nodesGetIds st).contains t) = true
  · apply cnt_nodesAdd_one
    exact Nat.le_antisymm (countP_le_one_of_nodup t st.nodes hN)
      (countP_pos_of_contains st t hc)
  · have hco : ((nodesGetIds st).contains t) = false := by
      rw [Bool.eq_false_iff]
      exact hc
    apply cnt_nodesAdd_zero
    · exact countP_zero_of_not_contains st t hco
    · obtain ⟨i, hi⟩ := exists_enum_of_mem ha
      exact buildChildren_mem C st page (nd.level + 1) (C.spawn page).1 (C.spawn page).2
        data.enum t ⟨(i, a), hi, ht⟩ hco

/-- Witness for claim C2: expanding page 0 with the duplicate link list
[5, 5, 7] leaves exactly one node with id 5. -/
theorem expandNodeCallback_unique_node_witness :
    ∃ st2, expandNodeCallback ctxW stExpand 0 [5, 5, 7] = some st2 ∧
      st2.nodes.countP (fun n => n.id == 5) = 1 :=
  expandNodeCallback_unique_node ctxW stExpand 0 [5, 5, 7] 5 5 5 (nodeW 0 0 none)
    (by decide) (by decide) (by decide) (by decide) rfl rfl

/-! Highlight classification lemmas. -/

theorem mapM_option_mem {β γ : Type u} (f : β → Option γ) :
    ∀ (l : List β) (outs : List γ), l.mapM f = some outs →
      ∀ y ∈ outs, ∃ x ∈ l, f x = some y := by
  intro l
  induction l with
  | nil =>
    intro outs h y hy
    rw [List.mapM_nil] at h
    obtain rfl := Option.some.inj h
    cases hy
  | cons x rest ih =>
    intro outs h y hy
    rw [List.mapM_cons] at h
    cases hfx : f x with
    | none =>
      rw [hfx] at h
      simp at h
    | some z =>
      rw [hfx] at h
      cases hrest : rest.mapM f with
      | none =>
        rw [hrest] at h
        simp at h
      | some zs =>
        rw [hrest] at h
        simp only [Option.bind_eq_bind, Option.some_bind, Option.pure_def,
          Option.some.injEq] at h
        subst h
        rcases List.mem_cons.mp hy with rfl | hyz
        · exact ⟨x, List.mem_cons_self x rest, hfx⟩
        · obtain ⟨w, hw, hfw⟩ := ih zs hrest y hyz
          exact ⟨w, List.mem_cons_of_mem x hw, hfw⟩

theorem mapM_option_triples (f : Edge α → Option (Edge α))
    (hf : ∀ e e', f e = some e' →
      ((e'.id, e'.efrom, e'.eto) : Nat × α × α) = (e.id, e.efrom, e.eto)) :
    ∀ (l outs : List (Edge α)), l.mapM f = some outs →
      outs.map (fun e => ((e.id, e.efrom, e.eto) : Nat × α × α))
        = l.map (fun e => ((e.id, e.efrom, e.eto) : Nat × α × α)) := by
  intro l
  induction l with
  | nil =>
    intro outs h
    rw [List.mapM_nil] at h
    obtain rfl := Option.some.inj h
    rfl
  | cons x rest ih =>
    intro outs h
    rw [List.mapM_cons] at h
    cases hfx : f x with
    | none =>
      rw [hfx] at h
      simp at h
    | some z =>
      rw [hfx] at h
      cases hrest : rest.mapM f with
      | none =>
        rw [hrest] at h
        simp at h
      | some zs =>
        rw [hrest] at h
        simp only [Option.bind_eq_bind, Option.some_bind, Option.pure_def,
          Option.some.injEq] at h
        subst h
        rw [List.map_cons, List.map_cons, hf x z hfx, ih zs hrest]

theorem classifyEdge_cases (st : St α) (ce : List Nat) (e e' : Edge α)
    (h : classifyEdge st ce e = some e') :
    (st.traceedges.contains (some e.id) = true ∧
      e' = { e with width := 5, color := EColor.inheritTo }) ∨
    (st.traceedges.contains (some e.id) = false ∧ ce.contains e.id = true ∧
      ∃ tn, nodesGet st e.eto = some tn ∧
        e' = { e with width := 3, color := EColor.level tn.level }) ∨
    (st.traceedges.contains (some e.id) = false ∧ ce.contains e.id = false ∧
      e' = { e with width := 1, color := EColor.dim }) := by
  unfold classifyEdge at h
  by_cases h1 : (st.traceedges.contains (some e.id)) = true
  · rw [if_pos h1] at h
    exact Or.inl ⟨h1, (Option.some.inj h).symm⟩
  · rw [if_neg h1] at h
    have h1f : st.traceedges.contains (some e.id) = false := Bool.eq_false_iff.mpr h1
    by_cases h2 : (ce.contains e.id) = true
    · rw [if_pos h2] at h
      rcases Option.map_eq_some'.mp h with ⟨tn, htn, he'⟩
      exact Or.inr (Or.inl ⟨h1f, h2, tn, htn, he'.symm⟩)
    · rw [if_neg h2] at h
      exact Or.inr (Or.inr ⟨h1f, Bool.eq_false_iff.mpr h2, (Option.some.inj h).symm⟩)

theorem resetTraceColors_edges (st : St α) : (resetTraceColors st).edges = st.edges := by
  unfold resetTraceColors
  simp [apply_ite St.edges, colorNodes]

theorem resetProperties_edges_triples {st s1 : St α} (h : resetProperties st = some s1) :
    s1.edges.map (fun e => ((e.id, e.efrom, e.eto) : Nat × α × α))
      = st.edges.map (fun e => ((e.id, e.efrom, e.eto) : Nat × α × α)) := by
  cases hb : st.isReset with
  | true =>
    rw [resetProperties_of_isReset hb] at h
    obtain rfl := Option.some.inj h
    rfl
  | false =>
    simp only [resetProperties] at h
    rw [if_neg (by simp [hb])] at h
    cases hes : resetEdgeDefaults
        (resetFonts (resetTraceColors { st with selectedNode := none })) with
    | none =>
      rw [hes] at h
      cases h
    | some es =>
      rw [hes] at h
      obtain rfl := Option.some.inj h
      show es.map _ = _
      rw [resetEdgeDefaults] at hes
      have h3 := mapM_option_triples _ ?hstep _ es hes
      case hstep =>
        intro e e' hee
        rcases Option.map_eq_some'.mp hee with ⟨tn, _, rfl⟩
        rfl
      rw [h3]
      have hX : (resetFonts (resetTraceColors { st with selectedNode := none })).edges
          = (resetTraceColors { st with selectedNode := none }).edges := rfl
      rw [hX, resetTraceColors_edges]

theorem contains_connectedEdges_iff (s : St α) (i : α) (e : Edge α)
    (hN : (s.edges.map (fun x => x.id)).Nodup) (he : e ∈ s.edges) :
    ((networkGetConnectedEdges s i).contains e.id = true) ↔ (e.efrom = i ∨ e.eto = i) := by
  rw [networkGetConnectedEdges, List.contains_eq_any_beq, List.any_eq_true]
  constructor
  · rintro ⟨x, hx, hbe⟩
    rcases List.mem_map.mp hx with ⟨f, hfmem, rfl⟩
    obtain ⟨hfe, hfp⟩ := List.mem_filter.mp hfmem
    have hfeq : f = e := List.inj_on_of_nodup_map hN hfe he (beq_iff_eq.mp hbe).symm
    subst hfeq
    rcases (Bool.or_eq_true _ _).mp hfp with hl | hr
    · exact Or.inl (beq_iff_eq.mp hl)
    · exact Or.inr (beq_iff_eq.mp hr)
  · intro hadj
    refine ⟨e.id, List.mem_map.mpr ⟨e, List.mem_filter.mpr ⟨he, ?_⟩, rfl⟩, by simp⟩
    rcases hadj with hl | hr
    · simp [hl]
    · simp [hr]

theorem nodesGet_traceFonts_level (st : St α) (node : α) (cn : List α) (j : α) (n : Node α)
    (h : nodesGet st j = some n) :
    ∃ m, nodesGet (traceFonts st node cn) j = some m ∧ m.level = n.level := by
  have hfun : ∀ x : Node α,
      ((fun x : Node α =>
        let isActive := x.id == node || st.tracenodes.contains (some x.id) || cn.contains x.id
        { x with font := if isActive then FontColor.full else FontColor.dim }) x).id
        = x.id := by
    intro x
    rfl
  have h1 : nodesGet (traceFonts st node cn) j
      = ((st.nodes.map (fun x : Node α =>
          let isActive := x.id == node || st.tracenodes.contains (some x.id) || cn.contains x.id
          { x with font := if isActive then FontColor.full else FontColor.dim })).find?
            (fun x => x.id == j)) := rfl
  rw [h1, find?_id_map hfun]
  have h2 : (st.nodes.find? fun x => x.id == j) = some n := h
  rw [h2]
  exact ⟨_, rfl, rfl⟩

theorem nodesGet_colorNodes_level (s : St α) (ns : List (Node α)) (flag : Nat) (j : α)
    (n : Node α) (h : nodesGet s j = some n) :
    ∃ m, nodesGet (colorNodes s ns flag) j = some m ∧ m.level = n.level := by
  have hfun : ∀ x : Node α,
      ((fun x : Node α =>
        if ns.any (fun m => m.id == x.id) then
          { x with color := if flag == 0 then NColor.level x.level else NColor.highlight }
        else x) x).id = x.id := by
    intro x
    by_cases hx : (ns.any (fun m => m.id == x.id)) = true <;> simp [hx]
  have h1 : nodesGet (colorNodes s ns flag) j
      = ((s.nodes.map (fun x : Node α =>
          if ns.any (fun m => m.id == x.id) then
            { x with color := if flag == 0 then NColor.level x.level else NColor.highlight }
          else x)).find? (fun x => x.id == j)) := rfl
  rw [h1, find?_id_map hfun]
  have h2 : (s.nodes.find? fun x => x.id == j) = some n := h
  rw [h2]
  refine ⟨_, rfl, ?_⟩
  by_cases hx : (ns.any (fun m => m.id == n.id)) = true <;> simp [hx]

/-- Claim C9: on entering the traced state for a node, every edge of the
resulting store falls in exactly one class - traced (its id in the stored
trace edge list, taking priority) with width 5 and the inherit color,
connected (incident to the node but not traced) with width 3 and the
level color of its target, or unrelated with width 1 and the dimmed
color. -/
theorem traceBack_classifies (st st' : St α) (node : α)
    (hsel : st.selectedNode ≠ some node)
    (hN : (st.edges.map (fun x => x.id)).Nodup)
    (h : traceBack st node = some st') :
    ∀ e ∈ st'.edges,
      ((st'.traceedges.contains (some e.id)) = true ∧ e.width = 5 ∧
        e.color = EColor.inheritTo) ∨
      ((st'.traceedges.contains (some e.id)) = false ∧ (e.efrom = node ∨ e.eto = node) ∧
        e.width = 3 ∧ ∃ n, nodesGet st' e.eto = some n ∧ e.color = EColor.level n.level) ∨
      ((st'.traceedges.contains (some e.id)) = false ∧ ¬(e.efrom = node ∨ e.eto = node) ∧
        e.width = 1 ∧ e.color = EColor.dim) := by
  have hguard : ¬((some node == st.selectedNode) = true) := by
    intro hq
    exact hsel (beq_iff_eq.mp hq).symm
  rw [traceBack, if_neg hguard] at h
  cases hr : resetProperties st with
  | none =>
    rw [hr] at h
    cases h
  | some s1 =>
    rw [hr, Option.some_bind] at h
    simp only [traceBackCore] at h
    split at h
    · exact Option.noConfusion h
    · rename_i tn htn
      split at h
      · exact Option.noConfusion h
      · rename_i es hes
        set sTr := traceStoreTrace (traceSetState s1 node) tn with hsTrdef
        set ce := networkGetConnectedEdges sTr node with hcedef
        set cn := networkGetConnectedNodes sTr node with hcndef
        obtain rfl := Option.some.inj h
        set stF := traceFonts { sTr with edges := es } node cn with hstFdef
        intro e' he'
        have he2 : e' ∈ es := he'
        obtain ⟨e0, he0mem, hcl⟩ := mapM_option_mem (classifyEdge sTr ce) sTr.edges es hes e' he2
        have htrip := resetProperties_edges_triples hr
        have hids : s1.edges.map (fun x => x.id) = st.edges.map (fun x => x.id) := by
          have hcg := congrArg (List.map Prod.fst) htrip
          simpa [List.map_map] using hcg
        have hN1 : (sTr.edges.map (fun x => x.id)).Nodup := by
          have hse : sTr.edges = s1.edges := rfl
          rw [hse, hids]
          exact hN
        have he0sTr : e0 ∈ sTr.edges := he0mem
        rcases classifyEdge_cases sTr ce e0 e' hcl with
          ⟨h1, rfl⟩ | ⟨h1f, h2, tn0, htn0, rfl⟩ | ⟨h1f, h2f, rfl⟩
        · exact Or.inl ⟨h1, rfl, rfl⟩
        · have hadj : e0.efrom = node ∨ e0.eto = node :=
            (contains_connectedEdges_iff sTr node e0 hN1 he0sTr).mp h2
          have htnE : nodesGet { sTr with edges := es } e0.eto = some tn0 := htn0
          obtain ⟨m1, hm1, hl1⟩ :=
            nodesGet_traceFonts_level { sTr with edges := es } node cn e0.eto tn0 htnE
          have hm1F : nodesGet stF e0.eto = some m1 := hm1
          obtain ⟨m2, hm2, hl2⟩ :=
            nodesGet_colorNodes_level stF
              (stF.tracenodes.filterMap (fun (o : Option α) => o.bind (fun i => nodesGet stF i)))
              1 e0.eto m1 hm1F
          refine Or.inr (Or.inl ⟨h1f, hadj, rfl, m2, hm2, ?_⟩)
          rw [hl2, hl1]
        · refine Or.inr (Or.inr ⟨h1f, ?_, rfl, rfl⟩)
          intro hadj
          have hcontra := (contains_connectedEdges_iff sTr node e0 hN1 he0sTr).mpr hadj
          rw [h2f] at hcontra
          cases hcontra

/-- Witness for claim C9 on the highlighted fixture, instantiated at the
traced edge of stTraced. -/
theorem traceBack_classifies_witness :
    ((stTraced.traceedges.contains (some edgeTracedW.id)) = true ∧ edgeTracedW.width = 5 ∧
      edgeTracedW.color = EColor.inheritTo) ∨
    ((stTraced.traceedges.contains (some edgeTracedW.id)) = false ∧
      (edgeTracedW.efrom = 1 ∨ edgeTracedW.eto = 1) ∧ edgeTracedW.width = 3 ∧
      ∃ n, nodesGet stTraced edgeTracedW.eto = some n ∧
        edgeTracedW.color = EColor.level n.level) ∨
    ((stTraced.traceedges.contains (some edgeTracedW.id)) = false ∧
      ¬(edgeTracedW.efrom = 1 ∨ edgeTracedW.eto = 1) ∧ edgeTracedW.width = 1 ∧
      edgeTracedW.color = EColor.dim) :=
  traceBack_classifies stTrace stTraced 1 (by decide) (by decide) (by decide)
    edgeTracedW (by decide)
